import Mathlib

/-!
Verification of the NULLID-ZKVERIFY eml receiver circuit and its tooling.

The development shallowly embeds three source files:

* `src/circuits/eml_receiver.circom` — each circom template becomes a
  constraint-satisfaction predicate over an abstract field `F`.  The Poseidon
  compression (included from circomlib, external to the repository) is an
  abstract function parameter `posH : F → F → F`; the `Num2Bits` gadget of
  circomlib `bitify.circom` (also external) is modelled from the spec as an
  8-bit boolean decomposition.  Internal component signals are existentially
  quantified in the satisfaction predicates, interface signals are arguments.
* `src/tools/build_input.js` — the witness builder becomes pure functions on
  `List ℕ` (byte lists); `process.exit(2)` on a missing literal becomes
  `Except.error 2`, the written `input.json` becomes the `Except.ok` payload.
* `src/relayer/submit.js` — the two status-polling loops become fuel-indexed
  functions over a stream of status strings.
-/

namespace EmlReceiver

/-! ## Circuit constraint system (src/circuits/eml_receiver.circom) -/

/-- Modelled from the spec: the constraints of circomlib's `Num2Bits(8)`
(file `bitify.circom`, included by the circuit but not part of this
repository).  The spec describes it as "a fixed-width binary decomposition
(8 bits)" that "reconstructs the value from the bits": eight internal bit
signals, each boolean-constrained, whose base-2 weighted sum equals the
input.  The bit signals are internal to the component, hence existential. -/
def num2Bits8Sat {F : Type} [Field F] (b : F) : Prop :=
  ∃ bits : ℕ → F,
    (∀ i ∈ Finset.range 8, bits i * (bits i - 1) = 0) ∧
    (∑ i ∈ Finset.range 8, bits i * (2 : F) ^ i) = b

/-- Constraints of template `ByteIsUint8` (circuit lines 34-40): a single
`Num2Bits(8)` component fed the input (the `ok` output is the constant 1). -/
def byteIsUint8Sat {F : Type} [Field F] (b : F) : Prop :=
  num2Bits8Sat b

/-- Packed value computed by `Pack31BytesLittleEndian` (circuit lines 54-60):
`accCalc = sum of bytes[j] * 256^j` with `b[0]` least significant. -/
def pack31 {F : Type} [Field F] (bytes : ℕ → F) : F :=
  ∑ j ∈ Finset.range 31, bytes j * (256 : F) ^ j

/-- Constraints of template `Pack31BytesLittleEndian` (circuit lines 42-61):
every input is byte-constrained and the output equals the packed value. -/
def pack31Sat {F : Type} [Field F] (bytes : ℕ → F) (out : F) : Prop :=
  (∀ k ∈ Finset.range 31, byteIsUint8Sat (bytes k)) ∧ out = pack31 bytes

/-- Byte fed to packer `c` at position `k` inside `RollingPoseidon`
(circuit lines 73-79): `eml[c*31+k]` when the index is in range, else 0. -/
def chunkByte {F : Type} [Field F] (maxLen : ℕ) (eml : ℕ → F) (c k : ℕ) : F :=
  if c * 31 + k < maxLen then eml (c * 31 + k) else 0

/-- Constraints of template `RollingPoseidon(maxLen, numChunks)` (circuit
lines 63-91).  The packer outputs and the Poseidon chain outputs are internal
signals, hence existential; each Poseidon component is the abstract
compression `posH` applied to its two inputs, mirroring
`H[i].inputs[0] <== (i == 0 ? 0 : H[i-1].out)` and
`H[i].inputs[1] <== packers[i].out`, with
`commitment <== H[numChunks-1].out`. -/
def rollingPoseidonSat {F : Type} [Field F] (posH : F → F → F)
    (maxLen numChunks : ℕ) (eml : ℕ → F) (commitment : F) : Prop :=
  ∃ packOut hOut : ℕ → F,
    (∀ c ∈ Finset.range numChunks,
      pack31Sat (fun k => chunkByte maxLen eml c k) (packOut c)) ∧
    (∀ i ∈ Finset.range numChunks,
      hOut i = posH (if i = 0 then 0 else hOut (i - 1)) (packOut i)) ∧
    commitment = hOut (numChunks - 1)

/-- Constraints of template `LiteralAtIndex(MAX_EML_LEN, LIT_LEN)` (circuit
lines 93-127): selector booleanity in the valid window of
`POSITIONS = MAX_EML_LEN - LIT_LEN + 1` start positions, the window sum equal
to 1, zero outside the window, and the per-position dot-product constraints
`sel[t] * (eml[t+i] - lit[i]) === 0` (the `ok` output is the constant 1). -/
def literalAtIndexSat {F : Type} [Field F] (MAXL LITL : ℕ)
    (eml lit sel : ℕ → F) : Prop :=
  (∀ t ∈ Finset.range (MAXL - LITL + 1), sel t * (sel t - 1) = 0) ∧
  (∑ t ∈ Finset.range (MAXL - LITL + 1), sel t) = 1 ∧
  (∀ u, MAXL - LITL + 1 ≤ u → u < MAXL → sel u = 0) ∧
  (∀ i ∈ Finset.range LITL, ∀ t ∈ Finset.range (MAXL - LITL + 1),
    sel t * (eml (t + i) - lit i) = 0)

/-- Constraints of the top-level template `EmlHasHeadersSimple(MAX_EML_LEN)`
(circuit lines 129-187): one `RollingPoseidon(MAX_EML_LEN, 265)` whose
commitment output is constrained to equal the public `eml_commitment`, and
three `LiteralAtIndex` instances of literal lengths 5 ("From:"),
3 ("To:") and 10 ("@gmail.com").  `component main` instantiates this with
`MAX_EML_LEN = 8192` and `eml_commitment` as the only public signal. -/
def emlHasHeadersSimpleSat {F : Type} [Field F] (MAXL : ℕ) (posH : F → F → F)
    (eml_commitment : F) (eml fromB toB atgB selFrom selTo selAtg : ℕ → F) :
    Prop :=
  rollingPoseidonSat posH MAXL 265 eml eml_commitment ∧
  literalAtIndexSat MAXL 5 eml fromB selFrom ∧
  literalAtIndexSat MAXL 3 eml toB selTo ∧
  literalAtIndexSat MAXL 10 eml atgB selAtg

/-- One-hot field-valued selector with the single 1 at position `p`
(the field image of the builder's `oneHot` array). -/
def oneHotF {F : Type} [Field F] (p : ℕ) : ℕ → F :=
  fun u => if u = p then 1 else 0

/-! ## Specification-side rolling commitment (spec sections 4.2 and 4.3)

These two definitions follow the spec's words, for comparison with the
circuit:  "split the buffer into chunks in index order; pack each chunk;
fold with h_0 = 0, h_k = Compress(h_{k-1}, packed_k); commitment =
h_{numChunks}", chunk `c` holding buffer entries `[31c, 31c+31)` packed
little-endian and zero-padded past the end of the buffer. -/

/-- Spec section 4.2: chunk `c` of the buffer packed as
`sum of b[i] * 256^i`, positions past `maxLen` zero-padded. -/
def specPackChunk {F : Type} [Field F] (maxLen : ℕ) (eml : ℕ → F) (c : ℕ) :
    F :=
  ∑ i ∈ Finset.range 31,
    (if c * 31 + i < maxLen then eml (c * 31 + i) else 0) * (256 : F) ^ i

/-- Spec section 4.3: the rolling commitment as the left fold of the
compression function over the packed chunks in index order, from 0. -/
def specCommitment {F : Type} [Field F] (posH : F → F → F)
    (maxLen numChunks : ℕ) (eml : ℕ → F) : F :=
  (List.range numChunks).foldl (fun h c => posH h (specPackChunk maxLen eml c)) 0

/-- Explicit chain of compression steps: `rollAcc n` is `h_n` of the fold
(`h_0 = 0`, `h_{n+1} = posH h_n (packs n)`).  Proof-side bridge between the
relational circuit chain and the two fold definitions. -/
def rollAcc {F : Type} [Field F] (posH : F → F → F) (packs : ℕ → F) : ℕ → F
  | 0 => 0
  | n + 1 => posH (rollAcc posH packs n) (packs n)

/-! ## Witness builder (src/tools/build_input.js) -/

/-- JS `pack31LE` (builder lines 9-17): pack the first 31 entries of a byte
list little-endian, missing entries read as 0 (`bytes[i] || 0`). -/
def pack31LE (bytes : List ℕ) : ℕ :=
  ∑ i ∈ Finset.range 31, bytes.getD i 0 * 256 ^ i

/-- Builder lines 37-38: truncate the raw document to `MAX = 8192` bytes and
zero-pad on the right up to length 8192. -/
def padMax (raw : List ℕ) : List ℕ :=
  raw.take 8192 ++ List.replicate (8192 - (raw.take 8192).length) 0

/-- ASCII bytes of the literal `From:` (builder line 42, `strBytesAscii`). -/
def fromBytes : List ℕ := [70, 114, 111, 109, 58]

/-- ASCII bytes of the literal `To:` (builder line 43). -/
def toBytes : List ℕ := [84, 111, 58]

/-- ASCII bytes of the literal `@gmail.com` (builder line 44). -/
def atgBytes : List ℕ := [64, 103, 109, 97, 105, 108, 46, 99, 111, 109]

/-- Exact byte match of `needle` inside `hay` at start position `t`, the
match required to fit inside `hay` (the semantics of a `Buffer.indexOf` hit
at `t`, builder lines 45-47). -/
def matchesAt (hay needle : List ℕ) (t : ℕ) : Bool :=
  decide (t + needle.length ≤ hay.length) &&
    (List.range needle.length).all fun i => hay.getD (t + i) 0 == needle.getD i 0

/-- Left-to-right scan for the first match of `needle` in `hay` from
position `t`, with explicit fuel for structural recursion. -/
def searchFrom (hay needle : List ℕ) : ℕ → ℕ → Option ℕ
  | _, 0 => none
  | t, fuel + 1 =>
    if matchesAt hay needle t then some t else searchFrom hay needle (t + 1) fuel

/-- JS `buf.indexOf(needle)` (builder lines 45-47): position of the first
occurrence, `none` standing for the JS return value -1. -/
def indexOf (hay needle : List ℕ) : Option ℕ :=
  searchFrom hay needle 0 hay.length

/-- JS `oneHot` (builder lines 23-27): a length-`len` 0/1 list with a single
1 at position `pos` when `pos < len`. -/
def oneHot (len pos : ℕ) : List ℕ :=
  (List.range len).map fun u => if u = pos then 1 else 0

/-- JS Poseidon fold of the builder (lines 55-60): `h = 0`; for each offset
`off = 0, 31, 62, ...` below 8192 — that is `off = 31*c` for `c < 265` —
`h = poseidon(h, pack31LE(eml.slice(off, off+31)))`.  The compression is the
same abstract `posH` as in the circuit model, applied to the packed chunk
cast into the field. -/
def builderHash {F : Type} [Field F] (posH : F → F → F) (eml : List ℕ) : F :=
  (List.range 265).foldl
    (fun h c => posH h ((pack31LE ((eml.drop (c * 31)).take 31) : ℕ) : F)) 0

/-- Builder lines 29-74 as a pure function of the padded buffer: search the
three literals, fail with exit code 2 when one is absent (lines 48-51),
otherwise produce the content of `input.json` (lines 62-73):
`(eml_commitment, eml, from_bytes, to_bytes, atg_bytes, sel_from, sel_to,
sel_atg)`. -/
def buildFromPadded {F : Type} [Field F] (posH : F → F → F) (eml : List ℕ) :
    Except ℕ (F × List ℕ × List ℕ × List ℕ × List ℕ × List ℕ × List ℕ × List ℕ) :=
  match indexOf eml fromBytes, indexOf eml toBytes, indexOf eml atgBytes with
  | some pf, some pt, some pa =>
    Except.ok (builderHash posH eml, eml, fromBytes, toBytes, atgBytes,
      oneHot 8192 pf, oneHot 8192 pt, oneHot 8192 pa)
  | _, _, _ => Except.error 2

/-- The whole builder run on a raw document: truncate/pad, then search and
assemble.  `Except.error 2` models `process.exit(2)` before `input.json` is
written; `Except.ok` models the written `input.json`. -/
def buildInput {F : Type} [Field F] (posH : F → F → F) (raw : List ℕ) :
    Except ℕ (F × List ℕ × List ℕ × List ℕ × List ℕ × List ℕ × List ℕ × List ℕ) :=
  buildFromPadded posH (padMax raw)

/-! ## Relayer polling loops (src/relayer/submit.js) -/

/-- The first status-polling loop (submit.js lines 87-93):
`for (;;) { status = poll(); if (status === Aggregated) break; sleep(5s) }`.
`st k` is the status returned by the k-th poll; the fuel bounds how many
polls are observed: `some k` means the loop exits at the k-th poll, `none`
that it is still running after `fuel` polls. -/
def pollLoop (st : ℕ → String) : ℕ → ℕ → Option ℕ
  | _, 0 => none
  | k, fuel + 1 =>
    if st k == "Aggregated" then some k else pollLoop st (k + 1) fuel

/-- The bounded retry loop (submit.js lines 194-200):
`for (i = 0; i < 180 && !aggregated; i++) { sleep(5s); status = poll();
if (status === Aggregated) aggregated = true }`, returning the final
`aggregated` flag.  `k` indexes the polls, the fuel starts at 180. -/
def boundedPoll (st : ℕ → String) : ℕ → ℕ → Bool → Bool
  | _, 0, agg => agg
  | k, fuel + 1, agg =>
    if agg then true else boundedPoll st (k + 1) fuel (st k == "Aggregated")

/-! ## Concrete instances used by the witness theorems -/

instance factPrime12289 : Fact (Nat.Prime 12289) := ⟨by norm_num⟩

/-- Stand-in compression function over a small prime field, for evaluating
the parametric theorems on concrete inputs. -/
def hashEx : ZMod 12289 → ZMod 12289 → ZMod 12289 :=
  fun a b => a * b + a + 1

/-- Tiny concrete buffer: value 3 at index 1, value 7 at index 2, else 0. -/
def exEml : ℕ → ZMod 12289 :=
  fun n => if n = 1 then 3 else if n = 2 then 7 else 0

/-- Tiny concrete literal `[3, 7]`, occurring in `exEml` at position 1. -/
def exLit : ℕ → ZMod 12289 :=
  fun n => if n = 0 then 3 else if n = 1 then 7 else 0

/-- Concrete 18-byte raw document containing all three required literals:
`From:` at offset 0, `To:` at offset 5, `@gmail.com` at offset 8. -/
def exRaw : List ℕ := fromBytes ++ toBytes ++ atgBytes

/-! ## Helper lemmas: booleans and one-hot selectors in a field -/

lemma sel_cases {F : Type} [Field F] {x : F} (h : x * (x - 1) = 0) :
    x = 0 ∨ x = 1 := by
  rcases mul_eq_zero.mp h with h0 | h1
  · exact Or.inl h0
  · exact Or.inr (sub_eq_zero.mp h1)

lemma exists_one_of_sum_one {F : Type} [Field F] {sel : ℕ → F} {P : ℕ}
    (hb : ∀ t ∈ Finset.range P, sel t * (sel t - 1) = 0)
    (hs : (∑ t ∈ Finset.range P, sel t) = 1) :
    ∃ t ∈ Finset.range P, sel t = 1 := by
  by_contra hno
  push_neg at hno
  have hz : ∀ t ∈ Finset.range P, sel t = 0 := by
    intro t ht
    rcases sel_cases (hb t ht) with h0 | h1
    · exact h0
    · exact absurd h1 (hno t ht)
  rw [Finset.sum_congr rfl hz, Finset.sum_const_zero] at hs
  exact one_ne_zero hs.symm

lemma sum_bool_eq_natCast {F : Type} [Field F] (sel : ℕ → F) (s : Finset ℕ) :
    (∀ t ∈ s, sel t = 0 ∨ sel t = 1) →
    ∃ k, k ≤ s.card ∧ (∑ t ∈ s, sel t) = (k : F) := by
  induction s using Finset.induction_on with
  | empty => exact fun _ => ⟨0, by simp, by simp⟩
  | insert ha ih =>
    intro hb
    obtain ⟨k, hk, hsum⟩ := ih fun t ht => hb t (Finset.mem_insert_of_mem ht)
    rcases hb _ (Finset.mem_insert_self _ _) with h0 | h1
    · refine ⟨k, ?_, ?_⟩
      · rw [Finset.card_insert_of_not_mem ha]; omega
      · rw [Finset.sum_insert ha, h0, hsum, zero_add]
    · refine ⟨k + 1, ?_, ?_⟩
      · rw [Finset.card_insert_of_not_mem ha]; omega
      · rw [Finset.sum_insert ha, h1, hsum]; push_cast; ring

lemma two_ones_sum_ne_one {F : Type} [Field F] {sel : ℕ → F} {P : ℕ}
    (hc : ∀ n : ℕ, n ≤ P → (n : F) = 1 → n = 1)
    (hb : ∀ t ∈ Finset.range P, sel t * (sel t - 1) = 0)
    {t₁ t₂ : ℕ} (h₁ : t₁ ∈ Finset.range P) (h₂ : t₂ ∈ Finset.range P)
    (hne : t₁ ≠ t₂) (hv₁ : sel t₁ = 1) (hv₂ : sel t₂ = 1) :
    (∑ t ∈ Finset.range P, sel t) ≠ 1 := by
  intro hs
  have hsub : ({t₁, t₂} : Finset ℕ) ⊆ Finset.range P := by
    intro x hx
    rcases Finset.mem_insert.mp hx with h | h
    · rw [h]; exact h₁
    · rw [Finset.mem_singleton.mp h]; exact h₂
  obtain ⟨k, hk, hksum⟩ := sum_bool_eq_natCast sel (Finset.range P \ {t₁, t₂})
    fun t ht => sel_cases (hb t (Finset.mem_sdiff.mp ht).1)
  have hpair : (∑ t ∈ ({t₁, t₂} : Finset ℕ), sel t) = 2 := by
    rw [Finset.sum_pair hne, hv₁, hv₂]; norm_num
  have hsplit := Finset.sum_sdiff (f := sel) hsub
  rw [hksum, hpair, hs] at hsplit
  have hcard : (Finset.range P \ ({t₁, t₂} : Finset ℕ)).card = P - 2 := by
    rw [Finset.card_sdiff hsub, Finset.card_range, Finset.card_pair hne]
  have ht₁P : t₁ < P := Finset.mem_range.mp h₁
  have ht₂P : t₂ < P := Finset.mem_range.mp h₂
  have hk2 : k + 2 ≤ P := by omega
  have : ((k + 2 : ℕ) : F) = 1 := by push_cast; linear_combination hsplit
  have := hc (k + 2) hk2 this
  omega

/-! ## Helper lemmas: the literal occurrence gadget -/

lemma literal_sat_exists_match {F : Type} [Field F] {MAXL LITL : ℕ}
    {eml lit sel : ℕ → F} (hsat : literalAtIndexSat MAXL LITL eml lit sel) :
    ∃ t, t ≤ MAXL - LITL ∧ sel t = 1 ∧
      ∀ i ∈ Finset.range LITL, eml (t + i) = lit i := by
  obtain ⟨hb, hs, _, hdot⟩ := hsat
  obtain ⟨t, ht, hv⟩ := exists_one_of_sum_one hb hs
  have htw : t ≤ MAXL - LITL := by
    have := Finset.mem_range.mp ht; omega
  refine ⟨t, htw, hv, fun i hi => ?_⟩
  have hd := hdot i hi t ht
  rw [hv, one_mul] at hd
  exact sub_eq_zero.mp hd

lemma literal_oneHot_sat {F : Type} [Field F] {MAXL LITL : ℕ}
    {eml lit : ℕ → F} {p : ℕ} (hp : p ≤ MAXL - LITL)
    (hmatch : ∀ i ∈ Finset.range LITL, eml (p + i) = lit i) :
    literalAtIndexSat MAXL LITL eml lit (oneHotF p) := by
  refine ⟨?_, ?_, ?_, ?_⟩
  · intro t _
    by_cases h : t = p <;> simp [oneHotF, h]
  · simp only [oneHotF, Finset.sum_ite_eq', Finset.mem_range]
    rw [if_pos (by omega)]
  · intro u hu _
    have : u ≠ p := by omega
    simp [oneHotF, this]
  · intro i hi t _
    by_cases h : t = p
    · rw [h]
      simp only [oneHotF, if_pos rfl, one_mul]
      rw [hmatch i hi]
      ring
    · simp [oneHotF, h]

lemma literal_oneHot_unsat {F : Type} [Field F] {MAXL LITL : ℕ}
    {eml lit : ℕ → F} {p i₀ : ℕ} (hp : p ≤ MAXL - LITL)
    (hi₀ : i₀ ∈ Finset.range LITL) (hmis : eml (p + i₀) ≠ lit i₀) :
    ¬ literalAtIndexSat MAXL LITL eml lit (oneHotF p) := by
  rintro ⟨_, _, _, hdot⟩
  have hd := hdot i₀ hi₀ p (Finset.mem_range.mpr (by omega))
  simp only [oneHotF, eq_self_iff_true, if_true, one_mul] at hd
  exact hmis (sub_eq_zero.mp hd)

lemma literal_sat_unique_one {F : Type} [Field F] {MAXL LITL : ℕ}
    {eml lit sel : ℕ → F}
    (hc : ∀ n : ℕ, n ≤ MAXL - LITL + 1 → (n : F) = 1 → n = 1)
    (hsat : literalAtIndexSat MAXL LITL eml lit sel) :
    ∃ t ∈ Finset.range (MAXL - LITL + 1), sel t = 1 ∧
      ∀ u ∈ Finset.range (MAXL - LITL + 1), sel u = 1 → u = t := by
  obtain ⟨hb, hs, _, _⟩ := hsat
  obtain ⟨t, ht, hv⟩ := exists_one_of_sum_one hb hs
  refine ⟨t, ht, hv, fun u hu hvu => ?_⟩
  by_contra hne
  exact two_ones_sum_ne_one hc hb hu ht hne hvu hv hs

/-! ## Helper lemmas: the byte range gadget -/

set_option maxRecDepth 8000 in
lemma num2Bits8Sat_iff {F : Type} [Field F] (b : F) :
    num2Bits8Sat b ↔ ∃ m : ℕ, m < 256 ∧ b = (m : F) := by
  constructor
  · rintro ⟨bits, hb, hsum⟩
    classical
    refine ⟨∑ i ∈ Finset.range 8, if bits i = 1 then 2 ^ i else 0, ?_, ?_⟩
    · have hle : (∑ i ∈ Finset.range 8, if bits i = 1 then 2 ^ i else 0)
          ≤ ∑ i ∈ Finset.range 8, 2 ^ i :=
        Finset.sum_le_sum fun i _ => by
          split
          · exact le_rfl
          · exact Nat.zero_le _
      have h255 : (∑ i ∈ Finset.range 8, 2 ^ i) = 255 := by decide
      omega
    · rw [← hsum]
      push_cast
      refine Finset.sum_congr rfl fun i hi => ?_
      rcases sel_cases (hb i hi) with h0 | h1
      · rw [h0, if_neg (zero_ne_one (α := F)), zero_mul]
      · rw [h1, if_pos rfl, one_mul]
  · rintro ⟨m, hm, rfl⟩
    refine ⟨fun i => ((m / 2 ^ i % 2 : ℕ) : F), fun i _ => ?_, ?_⟩
    · show ((m / 2 ^ i % 2 : ℕ) : F) * (((m / 2 ^ i % 2 : ℕ) : F) - 1) = 0
      rcases Nat.mod_two_eq_zero_or_one (m / 2 ^ i) with h | h <;>
        rw [h] <;> push_cast <;> ring
    · have key : (∑ i ∈ Finset.range 8, m / 2 ^ i % 2 * 2 ^ i) = m := by
        have hall : ∀ m' ∈ Finset.range 256,
            (∑ i ∈ Finset.range 8, m' / 2 ^ i % 2 * 2 ^ i) = m' := by decide
        exact hall m (Finset.mem_range.mpr hm)
      calc (∑ i ∈ Finset.range 8, ((m / 2 ^ i % 2 : ℕ) : F) * (2 : F) ^ i)
          = ((∑ i ∈ Finset.range 8, m / 2 ^ i % 2 * 2 ^ i : ℕ) : F) := by
            push_cast
            rfl
        _ = (m : F) := by rw [key]

/-! ## Helper lemmas: the rolling commitment chain -/

lemma foldl_range_eq_rollAcc {F : Type} [Field F] (posH : F → F → F)
    (packs : ℕ → F) : ∀ n,
    (List.range n).foldl (fun h c => posH h (packs c)) 0 = rollAcc posH packs n := by
  intro n
  induction n with
  | zero => rfl
  | succ n ih =>
    rw [List.range_succ, List.foldl_append, ih]
    rfl

lemma rollAcc_congr {F : Type} [Field F] (posH : F → F → F) {p q : ℕ → F} :
    ∀ n, (∀ c, c < n → p c = q c) → rollAcc posH p n = rollAcc posH q n := by
  intro n
  induction n with
  | zero => intro _; rfl
  | succ n ih =>
    intro h
    simp only [rollAcc]
    rw [ih fun c hc => h c (by omega), h n (by omega)]

lemma hChain_eq_rollAcc {F : Type} [Field F] (posH : F → F → F)
    (packs hOut : ℕ → F) (n : ℕ)
    (hrec : ∀ i ∈ Finset.range n,
      hOut i = posH (if i = 0 then 0 else hOut (i - 1)) (packs i)) :
    ∀ i, i < n → hOut i = rollAcc posH packs (i + 1) := by
  intro i
  induction i with
  | zero =>
    intro h0
    have h := hrec 0 (Finset.mem_range.mpr h0)
    simpa [rollAcc] using h
  | succ i ih =>
    intro hi
    have hstep := hrec (i + 1) (Finset.mem_range.mpr hi)
    rw [if_neg (Nat.succ_ne_zero i)] at hstep
    simp only [Nat.add_sub_cancel] at hstep
    rw [hstep, ih (by omega)]
    simp [rollAcc]

lemma rolling_sat_commitment_eq {F : Type} [Field F] {posH : F → F → F}
    {maxLen numChunks : ℕ} {eml : ℕ → F} {commitment : F}
    (hn : 1 ≤ numChunks)
    (hsat : rollingPoseidonSat posH maxLen numChunks eml commitment) :
    commitment = specCommitment posH maxLen numChunks eml := by
  obtain ⟨packOut, hOut, hpack, hchain, hcomm⟩ := hsat
  have hpacks : ∀ c, c < numChunks → packOut c = specPackChunk maxLen eml c := by
    intro c hc
    have h := (hpack c (Finset.mem_range.mpr hc)).2
    rw [h]
    simp [pack31, chunkByte, specPackChunk]
  have hfin := hChain_eq_rollAcc posH packOut hOut numChunks hchain
    (numChunks - 1) (by omega)
  have hidx : numChunks - 1 + 1 = numChunks := by omega
  rw [hcomm, hfin, hidx, specCommitment, foldl_range_eq_rollAcc]
  exact rollAcc_congr posH numChunks hpacks

lemma rolling_sat_of_bytes {F : Type} [Field F] {posH : F → F → F}
    {maxLen numChunks : ℕ} {eml : ℕ → F} (hn : 1 ≤ numChunks)
    (hbytes : ∀ idx, idx < maxLen → ∃ m : ℕ, m < 256 ∧ eml idx = (m : F)) :
    rollingPoseidonSat posH maxLen numChunks eml
      (specCommitment posH maxLen numChunks eml) := by
  refine ⟨fun c => specPackChunk maxLen eml c,
    fun i => rollAcc posH (fun c => specPackChunk maxLen eml c) (i + 1),
    ?_, ?_, ?_⟩
  · intro c _
    constructor
    · intro k _
      unfold byteIsUint8Sat
      rw [num2Bits8Sat_iff]
      simp only [chunkByte]
      split
      · exact hbytes _ (by assumption)
      · exact ⟨0, by omega, by norm_num⟩
    · simp [pack31, chunkByte, specPackChunk]
  · intro i _
    rcases Nat.eq_zero_or_pos i with rfl | hpos
    · simp [rollAcc]
    · obtain ⟨j, rfl⟩ : ∃ j, i = j + 1 := ⟨i - 1, by omega⟩
      rw [if_neg (by omega)]
      simp [rollAcc]
  · show specCommitment posH maxLen numChunks eml
      = rollAcc posH (fun c => specPackChunk maxLen eml c) (numChunks - 1 + 1)
    have hidx : numChunks - 1 + 1 = numChunks := by omega
    rw [hidx, specCommitment, foldl_range_eq_rollAcc]

lemma rolling_sat_bytes_out {F : Type} [Field F] {posH : F → F → F}
    {maxLen numChunks : ℕ} {eml : ℕ → F} {commitment : F}
    (hsat : rollingPoseidonSat posH maxLen numChunks eml commitment)
    {idx : ℕ} (hidx : idx < maxLen) (hcov : idx < numChunks * 31) :
    ∃ m : ℕ, m < 256 ∧ eml idx = (m : F) := by
  obtain ⟨packOut, hOut, hpack, _, _⟩ := hsat
  have hc : idx / 31 < numChunks := by omega
  have hb := (hpack (idx / 31) (Finset.mem_range.mpr hc)).1 (idx % 31)
    (Finset.mem_range.mpr (by omega))
  unfold byteIsUint8Sat at hb
  rw [num2Bits8Sat_iff] at hb
  simp only [chunkByte] at hb
  have heq : idx / 31 * 31 + idx % 31 = idx := by omega
  rw [heq, if_pos hidx] at hb
  exact hb

/-! ## Helper lemmas: the witness builder -/

lemma getD_take_drop (raw : List ℕ) (off i : ℕ) (hi : i < 31) :
    ((raw.drop off).take 31).getD i 0 = raw.getD (off + i) 0 := by
  rw [List.getD_eq_getD_get?, List.getD_eq_getD_get?, List.get?_take hi,
    List.get?_drop]

lemma pack31LE_chunk_cast {F : Type} [Field F] (raw : List ℕ)
    (hlen : raw.length = 8192) (c : ℕ) :
    ((pack31LE ((raw.drop (c * 31)).take 31) : ℕ) : F)
      = specPackChunk 8192 (fun i => ((raw.getD i 0 : ℕ) : F)) c := by
  unfold pack31LE specPackChunk
  push_cast
  refine Finset.sum_congr rfl fun i hi => ?_
  have hi31 : i < 31 := Finset.mem_range.mp hi
  rw [getD_take_drop raw (c * 31) i hi31]
  by_cases h : c * 31 + i < 8192
  · rw [if_pos h]
  · rw [if_neg h, List.getD_eq_default _ _ (by omega)]
    norm_num

lemma builderHash_eq_spec {F : Type} [Field F] (posH : F → F → F)
    (raw : List ℕ) (hlen : raw.length = 8192) :
    builderHash posH raw
      = specCommitment posH 8192 265 (fun i => ((raw.getD i 0 : ℕ) : F)) := by
  have h1 := foldl_range_eq_rollAcc posH
    (fun c => ((pack31LE ((raw.drop (c * 31)).take 31) : ℕ) : F)) 265
  have h2 := foldl_range_eq_rollAcc posH
    (fun c => specPackChunk 8192 (fun i => ((raw.getD i 0 : ℕ) : F)) c) 265
  unfold builderHash specCommitment
  rw [h1, h2]
  exact rollAcc_congr posH 265 fun c _ => pack31LE_chunk_cast raw hlen c

lemma builder_bytes_cast {F : Type} [Field F] (raw : List ℕ)
    (hbytes : ∀ b ∈ raw, b < 256) :
    ∀ idx, idx < 8192 → ∃ m : ℕ, m < 256 ∧ ((raw.getD idx 0 : ℕ) : F) = (m : F) := by
  intro idx _
  refine ⟨raw.getD idx 0, ?_, rfl⟩
  by_cases hlt : idx < raw.length
  · rw [List.getD_eq_getElem _ _ hlt]
    exact hbytes _ (List.getElem_mem hlt)
  · rw [List.getD_eq_default _ _ (by omega)]
    omega

lemma searchFrom_some {hay needle : List ℕ} :
    ∀ fuel t p, searchFrom hay needle t fuel = some p →
      t ≤ p ∧ matchesAt hay needle p = true ∧
      ∀ q, t ≤ q → q < p → matchesAt hay needle q = false := by
  intro fuel
  induction fuel with
  | zero => intro t p h; simp [searchFrom] at h
  | succ fuel ih =>
    intro t p h
    rw [searchFrom] at h
    cases hm : matchesAt hay needle t with
    | true =>
      rw [if_pos hm] at h
      have hp : t = p := by injection h
      subst hp
      exact ⟨le_rfl, hm, fun q hq1 hq2 => absurd hq2 (by omega)⟩
    | false =>
      rw [if_neg (by simp [hm])] at h
      obtain ⟨h1, h2, h3⟩ := ih (t + 1) p h
      refine ⟨by omega, h2, fun q hq1 hq2 => ?_⟩
      rcases Nat.eq_or_lt_of_le hq1 with heq | hlt
      · rw [← heq]; exact hm
      · exact h3 q (by omega) hq2

lemma searchFrom_isSome {hay needle : List ℕ} :
    ∀ fuel t p, t ≤ p → p < t + fuel → matchesAt hay needle p = true →
      (searchFrom hay needle t fuel).isSome = true := by
  intro fuel
  induction fuel with
  | zero => intro t p h1 h2 _; exact absurd h2 (by omega)
  | succ fuel ih =>
    intro t p h1 h2 hm
    rw [searchFrom]
    by_cases hmt : matchesAt hay needle t = true
    · rw [if_pos hmt]; rfl
    · rw [if_neg hmt]
      have hne : t ≠ p := by
        intro h
        exact hmt (by rw [h]; exact hm)
      exact ih (t + 1) p (by omega) (by omega) hm

lemma matchesAt_false_of_ge {hay needle : List ℕ} {t : ℕ}
    (h : hay.length < t + needle.length) : matchesAt hay needle t = false := by
  have hn : ¬ (t + needle.length ≤ hay.length) := by omega
  simp [matchesAt, hn]

lemma indexOf_some {hay needle : List ℕ} {p : ℕ}
    (h : indexOf hay needle = some p) :
    matchesAt hay needle p = true ∧
      ∀ q, q < p → matchesAt hay needle q = false := by
  obtain ⟨_, h2, h3⟩ := searchFrom_some hay.length 0 p h
  exact ⟨h2, fun q hq => h3 q (by omega) hq⟩

lemma indexOf_none_iff {hay needle : List ℕ} (hn : 1 ≤ needle.length) :
    indexOf hay needle = none ↔ ∀ t, matchesAt hay needle t = false := by
  constructor
  · intro h t
    cases hmt : matchesAt hay needle t with
    | false => rfl
    | true =>
      by_cases hle : t + needle.length ≤ hay.length
      · have hs := searchFrom_isSome hay.length 0 t (by omega) (by omega) hmt
        rw [indexOf] at h
        rw [h] at hs
        simp at hs
      · rw [matchesAt_false_of_ge (by omega)] at hmt
        cases hmt
  · intro hall
    cases h : indexOf hay needle with
    | none => rfl
    | some p =>
      have hp := (indexOf_some h).1
      rw [hall p] at hp
      cases hp

lemma oneHot_getD {len pos u : ℕ} (hu : u < len) :
    (oneHot len pos).getD u 0 = if u = pos then 1 else 0 := by
  unfold oneHot
  have hlen : u < ((List.range len).map
      fun v => if v = pos then 1 else 0).length := by simpa using hu
  rw [List.getD_eq_getElem _ _ hlen]
  simp

lemma buildFromPadded_ok {F : Type} [Field F] (posH : F → F → F)
    (eml : List ℕ) {pf pt pa : ℕ}
    (hf : indexOf eml fromBytes = some pf)
    (ht : indexOf eml toBytes = some pt)
    (ha : indexOf eml atgBytes = some pa) :
    buildFromPadded posH eml = Except.ok (builderHash posH eml, eml, fromBytes,
      toBytes, atgBytes, oneHot 8192 pf, oneHot 8192 pt, oneHot 8192 pa) := by
  unfold buildFromPadded
  rw [hf, ht, ha]

lemma buildFromPadded_error {F : Type} [Field F] (posH : F → F → F)
    (eml : List ℕ)
    (h : indexOf eml fromBytes = none ∨ indexOf eml toBytes = none ∨
      indexOf eml atgBytes = none) :
    buildFromPadded posH eml = Except.error 2 := by
  unfold buildFromPadded
  rcases h with h | h | h
  · rw [h]
  · cases hf : indexOf eml fromBytes <;> rw [h]
  · cases hf : indexOf eml fromBytes <;> cases ht : indexOf eml toBytes <;> rw [h]

lemma buildFromPadded_ne_error {F : Type} [Field F] (posH : F → F → F)
    (eml : List ℕ) (hne : ∀ e, buildFromPadded posH eml ≠ Except.error e) :
    ∃ pf pt pa, indexOf eml fromBytes = some pf ∧
      indexOf eml toBytes = some pt ∧ indexOf eml atgBytes = some pa := by
  cases hf : indexOf eml fromBytes with
  | none => exact absurd (buildFromPadded_error posH eml (Or.inl hf)) (by simpa using hne 2)
  | some pf =>
    cases ht : indexOf eml toBytes with
    | none =>
      exact absurd (buildFromPadded_error posH eml (Or.inr (Or.inl ht)))
        (by simpa using hne 2)
    | some pt =>
      cases ha : indexOf eml atgBytes with
      | none =>
        exact absurd (buildFromPadded_error posH eml (Or.inr (Or.inr ha)))
          (by simpa using hne 2)
      | some pa => exact ⟨pf, pt, pa, rfl, rfl, rfl⟩

/-! ## Helper lemmas: the relayer polling loops -/

lemma pollLoop_some {st : ℕ → String} :
    ∀ fuel k j, pollLoop st k fuel = some j → st j = "Aggregated" := by
  intro fuel
  induction fuel with
  | zero => intro k j h; simp [pollLoop] at h
  | succ fuel ih =>
    intro k j h
    rw [pollLoop] at h
    cases hk : st k == "Aggregated" with
    | true =>
      rw [if_pos hk] at h
      have hkj : k = j := by injection h
      rw [← hkj]
      exact eq_of_beq hk
    | false =>
      rw [if_neg (by simp [hk])] at h
      exact ih _ _ h

lemma pollLoop_isSome_of_agg {st : ℕ → String} :
    ∀ fuel k j, k ≤ j → j < k + fuel → st j = "Aggregated" →
      (pollLoop st k fuel).isSome = true := by
  intro fuel
  induction fuel with
  | zero => intro k j h1 h2 _; exact absurd h2 (by omega)
  | succ fuel ih =>
    intro k j h1 h2 hagg
    rw [pollLoop]
    by_cases hk : (st k == "Aggregated") = true
    · rw [if_pos hk]; rfl
    · rw [if_neg hk]
      have hne : k ≠ j := by
        intro h
        exact hk (by simp [h, hagg])
      exact ih (k + 1) j (by omega) (by omega) hagg

lemma pollLoop_none {st : ℕ → String} (hall : ∀ k, st k ≠ "Aggregated") :
    ∀ fuel k, pollLoop st k fuel = none := by
  intro fuel
  induction fuel with
  | zero => intro k; rfl
  | succ fuel ih =>
    intro k
    rw [pollLoop, if_neg (by simpa using hall k)]
    exact ih (k + 1)

lemma boundedPoll_frame {st st₂ : ℕ → String} :
    ∀ fuel k a, (∀ j, k ≤ j → j < k + fuel → st j = st₂ j) →
      boundedPoll st k fuel a = boundedPoll st₂ k fuel a := by
  intro fuel
  induction fuel with
  | zero => intro k a _; rfl
  | succ fuel ih =>
    intro k a h
    rw [boundedPoll, boundedPoll]
    cases a with
    | true => rfl
    | false =>
      rw [if_neg (by simp), if_neg (by simp)]
      rw [h k le_rfl (by omega)]
      exact ih (k + 1) _ fun j h1 h2 => h j (by omega) (by omega)

lemma boundedPoll_gives_up {st : ℕ → String} :
    ∀ fuel k, (∀ j, k ≤ j → j < k + fuel → st j ≠ "Aggregated") →
      boundedPoll st k fuel false = false := by
  intro fuel
  induction fuel with
  | zero => intro k _; rfl
  | succ fuel ih =>
    intro k h
    rw [boundedPoll, if_neg (by simp)]
    have hbeq : (st k == "Aggregated") = false := by
      simpa using h k le_rfl (by omega)
    rw [hbeq]
    exact ih (k + 1) fun j h1 h2 => h j (by omega) (by omega)

lemma literal_sat_selected {F : Type} [Field F] {MAXL LITL : ℕ}
    {eml lit sel : ℕ → F}
    (hc : ∀ n : ℕ, n ≤ MAXL - LITL + 1 → (n : F) = 1 → n = 1)
    (hsat : literalAtIndexSat MAXL LITL eml lit sel) :
    ∃ t ∈ Finset.range (MAXL - LITL + 1), sel t = 1 ∧
      (∀ u ∈ Finset.range (MAXL - LITL + 1), sel u = 1 → u = t) ∧
      ∀ i ∈ Finset.range LITL, lit i = eml (t + i) := by
  obtain ⟨t, ht, hv, huniq⟩ := literal_sat_unique_one hc hsat
  refine ⟨t, ht, hv, huniq, fun i hi => ?_⟩
  obtain ⟨_, _, _, hdot⟩ := hsat
  have hd := hdot i hi t ht
  rw [hv, one_mul] at hd
  exact (sub_eq_zero.mp hd).symm

lemma emlZeroSat {F : Type} [Field F] (posH : F → F → F) :
    emlHasHeadersSimpleSat 8192 posH (specCommitment posH 8192 265 (fun _ => 0))
      (fun _ => 0) (fun _ => 0) (fun _ => 0) (fun _ => 0)
      (oneHotF 0) (oneHotF 0) (oneHotF 0) :=
  ⟨rolling_sat_of_bytes (by norm_num) (fun idx _ => ⟨0, by norm_num, by norm_num⟩),
   literal_oneHot_sat (Nat.zero_le _) (fun i _ => rfl),
   literal_oneHot_sat (Nat.zero_le _) (fun i _ => rfl),
   literal_oneHot_sat (Nat.zero_le _) (fun i _ => rfl)⟩

lemma castInj12289 : ∀ n : ℕ, n ≤ 8192 → (n : ZMod 12289) = 1 → n = 1 := by
  intro n hn h
  have hv := congrArg ZMod.val h
  rw [ZMod.val_cast_of_lt (by omega)] at hv
  have h1 : (1 : ZMod 12289).val = 1 := by decide
  omega

/-! ## The claims -/

/-- C1: Literal occurrence soundness for `LiteralAtIndex(MAX_EML_LEN,
LIT_LEN)`.  Every assignment of buffer, literal and selector signals that
satisfies the template's constraints admits a valid-window position `t` with
`sel[t] = 1` and `eml[t+i] = lit[i]` for every literal offset `i`;
conversely, a one-hot selector at a window position whose buffer window
differs from the literal makes the constraints unsatisfiable, while a
one-hot selector at a genuinely matching window position satisfies them. -/
theorem literalAtIndex_occurrence_sound (F : Type) [Field F]
    (MAXL LITL : ℕ) (eml lit : ℕ → F) :
    (∀ sel : ℕ → F, literalAtIndexSat MAXL LITL eml lit sel →
      ∃ t, t ≤ MAXL - LITL ∧ sel t = 1 ∧
        ∀ i ∈ Finset.range LITL, eml (t + i) = lit i) ∧
    (∀ p, p ≤ MAXL - LITL → (∃ i ∈ Finset.range LITL, eml (p + i) ≠ lit i) →
      ¬ literalAtIndexSat MAXL LITL eml lit (oneHotF p)) ∧
    (∀ p, p ≤ MAXL - LITL → (∀ i ∈ Finset.range LITL, eml (p + i) = lit i) →
      literalAtIndexSat MAXL LITL eml lit (oneHotF p)) := by
  refine ⟨fun sel h => literal_sat_exists_match h, ?_, ?_⟩
  · rintro p hp ⟨i₀, hi₀, hmis⟩
    exact literal_oneHot_unsat hp hi₀ hmis
  · intro p hp hmatch
    exact literal_oneHot_sat hp hmatch

/-- C1 witness: the matching direction evaluated on a concrete buffer and
literal over `ZMod 12289`, giving a concrete satisfying selector. -/
theorem literalAtIndex_occurrence_sound_witness :
    literalAtIndexSat 4 2 exEml exLit (oneHotF 1) :=
  (literalAtIndex_occurrence_sound (ZMod 12289) 4 2 exEml exLit).2.2 1
    (by norm_num) (by decide)

/-- C2: One-hot enforcement for `LiteralAtIndex`.  In every satisfying
assignment, each selector entry of the valid window is 0 or 1, the window
entries sum to exactly 1, and every entry outside the window is 0; an
all-zero selector, or a selector with two distinct ones in the window, makes
the constraints unsatisfiable regardless of buffer content.  The hypothesis
`hc` states that natural numbers up to `MAXL` cast injectively into `F`
relative to 1, which holds for the cryptographic field of the circuit. -/
theorem literalAtIndex_one_hot_enforcement (F : Type) [Field F]
    (MAXL LITL : ℕ) (h1 : 1 ≤ LITL) (hLM : LITL ≤ MAXL)
    (hc : ∀ n : ℕ, n ≤ MAXL → (n : F) = 1 → n = 1)
    (eml lit sel : ℕ → F) :
    (literalAtIndexSat MAXL LITL eml lit sel →
      (∀ t ∈ Finset.range (MAXL - LITL + 1), sel t = 0 ∨ sel t = 1) ∧
      (∑ t ∈ Finset.range (MAXL - LITL + 1), sel t) = 1 ∧
      (∀ u, MAXL - LITL + 1 ≤ u → u < MAXL → sel u = 0)) ∧
    ((∀ t, sel t = 0) → ¬ literalAtIndexSat MAXL LITL eml lit sel) ∧
    (∀ t₁ t₂, t₁ ∈ Finset.range (MAXL - LITL + 1) →
      t₂ ∈ Finset.range (MAXL - LITL + 1) → t₁ ≠ t₂ →
      sel t₁ = 1 → sel t₂ = 1 →
      ¬ literalAtIndexSat MAXL LITL eml lit sel) := by
  refine ⟨?_, ?_, ?_⟩
  · rintro ⟨hb, hs, hz, _⟩
    exact ⟨fun t ht => sel_cases (hb t ht), hs, hz⟩
  · rintro hzero ⟨hb, hs, _, _⟩
    rw [Finset.sum_congr rfl fun t _ => hzero t, Finset.sum_const_zero] at hs
    exact one_ne_zero hs.symm
  · rintro t₁ t₂ ht₁ ht₂ hne hv₁ hv₂ ⟨hb, hs, _, _⟩
    have hcP : ∀ n : ℕ, n ≤ MAXL - LITL + 1 → (n : F) = 1 → n = 1 :=
      fun n hn => hc n (by omega)
    exact two_ones_sum_ne_one hcP hb ht₁ ht₂ hne hv₁ hv₂ hs

/-- C2 witness: the all-zero selector is rejected on a concrete instance
over `ZMod 12289`. -/
theorem literalAtIndex_one_hot_enforcement_witness :
    ¬ literalAtIndexSat 4 2 exEml exLit (fun _ => (0 : ZMod 12289)) :=
  (literalAtIndex_one_hot_enforcement (ZMod 12289) 4 2 (by norm_num)
    (by norm_num) (fun n hn h => castInj12289 n (by omega) h)
    exEml exLit (fun _ => 0)).2.1 (fun _ => rfl)

/-- C3: Rolling commitment definition.  With the main instantiation
`MAX_EML_LEN = 8192` and `NUM_CHUNKS = 265 = ceil(8192/31)`, the final
chunk's 23 positions past buffer index 8191 are zero, the commitment signal
of every satisfying assignment of `RollingPoseidon` equals the spec-side
fold (`h_0 = 0`, `h_k = Poseidon(h_{k-1}, packed_k)`, commitment `= h_265`
over little-endian base-256 packed 31-byte chunks in index order), and that
fold value indeed satisfies the constraints whenever the buffer is
byte-valued. -/
theorem rolling_commitment_definition (F : Type) [Field F]
    (posH : F → F → F) (eml : ℕ → F) :
    (265 = (8192 + 31 - 1) / 31) ∧
    (∀ k, 8 ≤ k → k < 31 → chunkByte 8192 eml 264 k = 0) ∧
    (∀ commitment : F, rollingPoseidonSat posH 8192 265 eml commitment →
      commitment = specCommitment posH 8192 265 eml) ∧
    ((∀ idx, idx < 8192 → ∃ m : ℕ, m < 256 ∧ eml idx = (m : F)) →
      rollingPoseidonSat posH 8192 265 eml
        (specCommitment posH 8192 265 eml)) := by
  refine ⟨by norm_num, ?_, ?_, ?_⟩
  · intro k h8 h31
    unfold chunkByte
    rw [if_neg (by omega)]
  · intro commitment h
    exact rolling_sat_commitment_eq (by norm_num) h
  · intro hbytes
    exact rolling_sat_of_bytes (by norm_num) hbytes

/-- C3 witness: the all-zero buffer together with the spec-side fold value
satisfies the `RollingPoseidon` constraints over `ZMod 12289`. -/
theorem rolling_commitment_definition_witness :
    rollingPoseidonSat hashEx 8192 265 (fun _ => (0 : ZMod 12289))
      (specCommitment hashEx 8192 265 (fun _ => 0)) :=
  (rolling_commitment_definition (ZMod 12289) hashEx (fun _ => 0)).2.2.2
    (fun idx _ => ⟨0, by norm_num, by norm_num⟩)

/-- C4: Builder/circuit commitment agreement.  For every padded 8192-byte
buffer, the value of the builder's JavaScript Poseidon fold equals the
spec-side fold on the field image of the buffer, it satisfies the circuit's
`RollingPoseidon` constraints (so the builder's `eml_commitment` always
satisfies the commitment equality), and it is the only commitment value any
satisfying assignment can carry. -/
theorem builder_circuit_commitment_agree (F : Type) [Field F]
    (posH : F → F → F) (raw : List ℕ) (hlen : raw.length = 8192)
    (hbytes : ∀ b ∈ raw, b < 256) :
    builderHash posH raw
      = specCommitment posH 8192 265 (fun i => ((raw.getD i 0 : ℕ) : F)) ∧
    rollingPoseidonSat posH 8192 265 (fun i => ((raw.getD i 0 : ℕ) : F))
      (builderHash posH raw) ∧
    (∀ c : F, rollingPoseidonSat posH 8192 265
        (fun i => ((raw.getD i 0 : ℕ) : F)) c → c = builderHash posH raw) := by
  have heq := builderHash_eq_spec posH raw hlen
  refine ⟨heq, ?_, ?_⟩
  · rw [heq]
    exact rolling_sat_of_bytes (by norm_num) (builder_bytes_cast raw hbytes)
  · intro c hc
    rw [heq]
    exact rolling_sat_commitment_eq (by norm_num) hc

/-- C4 witness: the agreement evaluated on the all-zero padded buffer over
`ZMod 12289`. -/
theorem builder_circuit_commitment_agree_witness :
    builderHash hashEx (List.replicate 8192 0)
      = specCommitment hashEx 8192 265
          (fun i => (((List.replicate 8192 (0 : ℕ)).getD i 0 : ℕ) : ZMod 12289)) :=
  (builder_circuit_commitment_agree (ZMod 12289) hashEx
    (List.replicate 8192 0) (List.length_replicate 8192 0)
    (fun b hb => by rw [List.eq_of_mem_replicate hb]; norm_num)).1

/-- C6: Byte range check.  The `ByteIsUint8` constraints (an 8-bit binary
decomposition via `Num2Bits`) are satisfiable for an input exactly when it
is the field image of a natural number below 256; and in every satisfying
assignment of the full top-level constraint system, every buffer entry is
such a byte value — so an out-of-range entry makes the system
unsatisfiable. -/
theorem byte_range_check (F : Type) [Field F] (b : F) :
    (byteIsUint8Sat b ↔ ∃ m : ℕ, m < 256 ∧ b = (m : F)) ∧
    (∀ (posH : F → F → F) (comm : F) (eml fromB toB atgB sF sT sA : ℕ → F),
      emlHasHeadersSimpleSat 8192 posH comm eml fromB toB atgB sF sT sA →
      ∀ idx, idx < 8192 → ∃ m : ℕ, m < 256 ∧ eml idx = (m : F)) := by
  constructor
  · exact num2Bits8Sat_iff b
  · rintro posH comm eml fromB toB atgB sF sT sA ⟨hroll, _, _, _⟩ idx hidx
    exact rolling_sat_bytes_out hroll hidx (by omega)

/-- C6 witness: the byte gadget accepts the value 7 over `ZMod 12289`. -/
theorem byte_range_check_witness : byteIsUint8Sat (7 : ZMod 12289) :=
  (byte_range_check (ZMod 12289) 7).1.mpr ⟨7, by norm_num, by norm_num⟩

/-! ## Further builder helpers, for evaluating the search symbolically -/

lemma padMax_length (raw : List ℕ) : (padMax raw).length = 8192 := by
  unfold padMax
  rw [List.length_append, List.length_replicate, List.length_take]
  omega

lemma getD_padMax_of_lt {raw : List ℕ} {idx : ℕ} (hr : raw.length ≤ 8192)
    (h : idx < raw.length) : (padMax raw).getD idx 0 = raw.getD idx 0 := by
  unfold padMax
  rw [List.take_of_length_le hr, List.getD_append _ _ _ _ h]

lemma list_all_congr {l : List ℕ} {p q : ℕ → Bool} (h : ∀ a ∈ l, p a = q a) :
    l.all p = l.all q := by
  induction l with
  | nil => rfl
  | cons a l ih =>
    rw [List.all_cons, List.all_cons, h a (by simp),
      ih fun b hb => h b (by simp [hb])]

lemma matchesAt_padMax_inner (raw needle : List ℕ) (hr : raw.length ≤ 8192)
    (t : ℕ) (hfit : t + needle.length ≤ raw.length) :
    matchesAt (padMax raw) needle t
      = (List.range needle.length).all
          fun i => raw.getD (t + i) 0 == needle.getD i 0 := by
  unfold matchesAt
  have hd : decide (t + needle.length ≤ (padMax raw).length) = true := by
    rw [decide_eq_true_iff, padMax_length]
    omega
  rw [hd, Bool.true_and]
  refine list_all_congr fun i hi => ?_
  have hi' : i < needle.length := by simpa using hi
  rw [getD_padMax_of_lt hr (by omega)]

lemma searchFrom_eq_some {hay needle : List ℕ} {p : ℕ}
    (hp : matchesAt hay needle p = true) :
    ∀ fuel t, t ≤ p → p < t + fuel →
      (∀ q, t ≤ q → q < p → matchesAt hay needle q = false) →
      searchFrom hay needle t fuel = some p := by
  intro fuel
  induction fuel with
  | zero => intro t h1 h2 _; exact absurd h2 (by omega)
  | succ fuel ih =>
    intro t h1 h2 hmin
    rw [searchFrom]
    rcases Nat.eq_or_lt_of_le h1 with heq | hlt
    · rw [heq, if_pos hp]
    · have hf : matchesAt hay needle t = false := hmin t le_rfl hlt
      rw [if_neg (by simp [hf])]
      exact ih (t + 1) (by omega) (by omega) fun q hq1 hq2 => hmin q (by omega) hq2

lemma indexOf_eq_some {hay needle : List ℕ} {p : ℕ} (hn : 1 ≤ needle.length)
    (hp : matchesAt hay needle p = true)
    (hmin : ∀ q, q < p → matchesAt hay needle q = false) :
    indexOf hay needle = some p := by
  have hfit : p + needle.length ≤ hay.length := by
    by_contra hgt
    rw [matchesAt_false_of_ge (by omega)] at hp
    cases hp
  exact searchFrom_eq_some hp hay.length 0 (by omega) (by omega)
    fun q hq1 hq2 => hmin q hq2

/-- C5: Literal substitution gap.  The three literal arrays are private
witness signals, not pinned constants, and the only public signal is the
commitment: there is a buffer containing none of the intended literals
(`From:`, `To:`, `@gmail.com`) for which the full top-level constraint
system is nevertheless satisfiable, using literal values of the same lengths
5, 3 and 10 that differ from the intended ones and are read off the buffer's
own contents at the selected positions. -/
theorem literal_substitution_gap (F : Type) [Field F] (posH : F → F → F)
    (h70 : (70 : F) ≠ 0) (h84 : (84 : F) ≠ 0) (h64 : (64 : F) ≠ 0) :
    ∃ (comm : F) (eml fromB toB atgB sF sT sA : ℕ → F),
      emlHasHeadersSimpleSat 8192 posH comm eml fromB toB atgB sF sT sA ∧
      (∀ t, ¬ ∀ i ∈ Finset.range 5, eml (t + i) = ((fromBytes.getD i 0 : ℕ) : F)) ∧
      (∀ t, ¬ ∀ i ∈ Finset.range 3, eml (t + i) = ((toBytes.getD i 0 : ℕ) : F)) ∧
      (∀ t, ¬ ∀ i ∈ Finset.range 10, eml (t + i) = ((atgBytes.getD i 0 : ℕ) : F)) ∧
      fromB ≠ (fun i => ((fromBytes.getD i 0 : ℕ) : F)) ∧
      toB ≠ (fun i => ((toBytes.getD i 0 : ℕ) : F)) ∧
      atgB ≠ (fun i => ((atgBytes.getD i 0 : ℕ) : F)) ∧
      (∀ i ∈ Finset.range 5, fromB i = eml (0 + i)) ∧
      (∀ i ∈ Finset.range 3, toB i = eml (0 + i)) ∧
      (∀ i ∈ Finset.range 10, atgB i = eml (0 + i)) := by
  refine ⟨specCommitment posH 8192 265 (fun _ => 0), fun _ => 0, fun _ => 0,
    fun _ => 0, fun _ => 0, oneHotF 0, oneHotF 0, oneHotF 0, emlZeroSat posH,
    ?_, ?_, ?_, ?_, ?_, ?_, fun i _ => rfl, fun i _ => rfl, fun i _ => rfl⟩
  · intro t hall
    have h := hall 0 (by norm_num)
    exact h70 (by simpa [fromBytes] using h.symm)
  · intro t hall
    have h := hall 0 (by norm_num)
    exact h84 (by simpa [toBytes] using h.symm)
  · intro t hall
    have h := hall 0 (by norm_num)
    exact h64 (by simpa [atgBytes] using h.symm)
  · intro hEq
    have h := congrFun hEq 0
    exact h70 (by simpa [fromBytes] using h.symm)
  · intro hEq
    have h := congrFun hEq 0
    exact h84 (by simpa [toBytes] using h.symm)
  · intro hEq
    have h := congrFun hEq 0
    exact h64 (by simpa [atgBytes] using h.symm)

/-- C5 witness: the substitution gap realized over `ZMod 12289`. -/
theorem literal_substitution_gap_witness :
    ∃ (comm : ZMod 12289) (eml fromB toB atgB sF sT sA : ℕ → ZMod 12289),
      emlHasHeadersSimpleSat 8192 hashEx comm eml fromB toB atgB sF sT sA ∧
      (∀ t, ¬ ∀ i ∈ Finset.range 5,
        eml (t + i) = ((fromBytes.getD i 0 : ℕ) : ZMod 12289)) ∧
      (∀ t, ¬ ∀ i ∈ Finset.range 3,
        eml (t + i) = ((toBytes.getD i 0 : ℕ) : ZMod 12289)) ∧
      (∀ t, ¬ ∀ i ∈ Finset.range 10,
        eml (t + i) = ((atgBytes.getD i 0 : ℕ) : ZMod 12289)) ∧
      fromB ≠ (fun i => ((fromBytes.getD i 0 : ℕ) : ZMod 12289)) ∧
      toB ≠ (fun i => ((toBytes.getD i 0 : ℕ) : ZMod 12289)) ∧
      atgB ≠ (fun i => ((atgBytes.getD i 0 : ℕ) : ZMod 12289)) ∧
      (∀ i ∈ Finset.range 5, fromB i = eml (0 + i)) ∧
      (∀ i ∈ Finset.range 3, toB i = eml (0 + i)) ∧
      (∀ i ∈ Finset.range 10, atgB i = eml (0 + i)) :=
  literal_substitution_gap (ZMod 12289) hashEx (by decide) (by decide) (by decide)

/-- C7: Witness builder error handling and first-match tie-break.  The
builder fails with exit code 2 exactly when one of the three literals has no
occurrence in the zero-padded 8192-byte buffer (absence of an occurrence
being equivalent to `indexOf` returning none); on success it writes the
input whose selector lists are one-hot precisely at the first (lowest-index)
occurrence of each literal. -/
theorem builder_error_handling_first_match (F : Type) [Field F]
    (posH : F → F → F) (raw : List ℕ) :
    ((indexOf (padMax raw) fromBytes = none ∨
      indexOf (padMax raw) toBytes = none ∨
      indexOf (padMax raw) atgBytes = none) ↔
        buildInput posH raw = Except.error 2) ∧
    (indexOf (padMax raw) fromBytes = none ↔
      ∀ t, matchesAt (padMax raw) fromBytes t = false) ∧
    (indexOf (padMax raw) toBytes = none ↔
      ∀ t, matchesAt (padMax raw) toBytes t = false) ∧
    (indexOf (padMax raw) atgBytes = none ↔
      ∀ t, matchesAt (padMax raw) atgBytes t = false) ∧
    (∀ pf pt pa, indexOf (padMax raw) fromBytes = some pf →
      indexOf (padMax raw) toBytes = some pt →
      indexOf (padMax raw) atgBytes = some pa →
      buildInput posH raw = Except.ok (builderHash posH (padMax raw),
        padMax raw, fromBytes, toBytes, atgBytes,
        oneHot 8192 pf, oneHot 8192 pt, oneHot 8192 pa) ∧
      (matchesAt (padMax raw) fromBytes pf = true ∧
        ∀ q, q < pf → matchesAt (padMax raw) fromBytes q = false) ∧
      (matchesAt (padMax raw) toBytes pt = true ∧
        ∀ q, q < pt → matchesAt (padMax raw) toBytes q = false) ∧
      (matchesAt (padMax raw) atgBytes pa = true ∧
        ∀ q, q < pa → matchesAt (padMax raw) atgBytes q = false)) ∧
    (∀ p u, u < 8192 → (oneHot 8192 p).getD u 0 = if u = p then 1 else 0) := by
  refine ⟨⟨fun h => buildFromPadded_error posH (padMax raw) h, ?_⟩,
    indexOf_none_iff (by decide), indexOf_none_iff (by decide),
    indexOf_none_iff (by decide), ?_, fun p u hu => oneHot_getD hu⟩
  · intro herr
    by_contra hno
    push_neg at hno
    obtain ⟨h1, h2, h3⟩ := hno
    rcases hfo : indexOf (padMax raw) fromBytes with _ | pf
    · exact h1 hfo
    rcases hto : indexOf (padMax raw) toBytes with _ | pt
    · exact h2 hto
    rcases hao : indexOf (padMax raw) atgBytes with _ | pa
    · exact h3 hao
    rw [buildInput, buildFromPadded_ok posH (padMax raw) hfo hto hao] at herr
    exact absurd herr (by simp)
  · intro pf pt pa hf ht ha
    refine ⟨?_, indexOf_some hf, indexOf_some ht, indexOf_some ha⟩
    rw [buildInput]
    exact buildFromPadded_ok posH (padMax raw) hf ht ha

/-- C7 witness: on a concrete document holding `From:` at 0, `To:` at 5 and
`@gmail.com` at 8, the builder succeeds and emits exactly those one-hot
selectors. -/
theorem builder_error_handling_first_match_witness :
    buildInput hashEx exRaw = Except.ok (builderHash hashEx (padMax exRaw),
      padMax exRaw, fromBytes, toBytes, atgBytes,
      oneHot 8192 0, oneHot 8192 5, oneHot 8192 8) := by
  have hf : indexOf (padMax exRaw) fromBytes = some 0 :=
    indexOf_eq_some (by decide)
      (by rw [matchesAt_padMax_inner exRaw fromBytes (by decide) 0 (by decide)]
          decide)
      (fun q hq => absurd hq (by omega))
  have ht : indexOf (padMax exRaw) toBytes = some 5 :=
    indexOf_eq_some (by decide)
      (by rw [matchesAt_padMax_inner exRaw toBytes (by decide) 5 (by decide)]
          decide)
      (fun q hq => by
        interval_cases q <;>
          rw [matchesAt_padMax_inner exRaw toBytes (by decide) _ (by decide)] <;>
          decide)
  have ha : indexOf (padMax exRaw) atgBytes = some 8 :=
    indexOf_eq_some (by decide)
      (by rw [matchesAt_padMax_inner exRaw atgBytes (by decide) 8 (by decide)]
          decide)
      (fun q hq => by
        interval_cases q <;>
          rw [matchesAt_padMax_inner exRaw atgBytes (by decide) _ (by decide)] <;>
          decide)
  exact ((builder_error_handling_first_match (ZMod 12289) hashEx
    exRaw).2.2.2.2.1 0 5 8 hf ht ha).1

/-- C8: Truncation noninterference.  Two raw documents agreeing on their
first 8192 bytes produce identical builder output: the same commitment, the
same padded buffer and the same selector vectors, so bytes at or past
position 8192 never influence the result. -/
theorem truncation_noninterference (F : Type) [Field F] (posH : F → F → F)
    (raw₁ raw₂ : List ℕ) (h : raw₁.take 8192 = raw₂.take 8192) :
    buildInput posH raw₁ = buildInput posH raw₂ := by
  have hpad : padMax raw₁ = padMax raw₂ := by
    unfold padMax
    rw [h]
  rw [buildInput, buildInput, hpad]

/-- C8 witness: a document of length 8193 and the same document with its
byte past position 8191 replaced produce the same builder output. -/
theorem truncation_noninterference_witness :
    buildInput hashEx (List.replicate 8193 0)
      = buildInput hashEx (List.replicate 8192 0 ++ [7]) :=
  truncation_noninterference (ZMod 12289) hashEx _ _ (by
    rw [List.take_replicate, List.take_left' (List.length_replicate 8192 0)]
    have hmin : (8192 : ℕ) ⊓ 8193 = 8192 := by norm_num
    rw [hmin])

/-- C9 counterexample: the claim fails on the first polling loop of the
submission script.  At the concrete status stream that always answers
`IncludedInBlock`, no finite number of polls makes the loop exit: the
polling does not terminate after finitely many retries. -/
theorem polling_bounded_counterexample :
    ¬ ∃ fuel : ℕ,
      (pollLoop (fun _ => "IncludedInBlock") 0 fuel).isSome = true := by
  rintro ⟨fuel, hf⟩
  rw [pollLoop_none (fun k => by decide) fuel 0] at hf
  cases hf

/-- C9 (amended): the first status-polling loop never gives up — it
terminates exactly when some poll returns `Aggregated`; the secondary
180-retry loop is the bounded one: it always returns, its result depends
only on the first 180 status responses, and it gives up (returns false)
when none of them is `Aggregated`. -/
theorem polling_loops_characterization (st : ℕ → String) :
    ((∃ fuel, (pollLoop st 0 fuel).isSome = true) ↔
      ∃ k, st k = "Aggregated") ∧
    (∀ st₂ : ℕ → String, (∀ k, k < 180 → st k = st₂ k) →
      ∀ a : Bool, boundedPoll st 0 180 a = boundedPoll st₂ 0 180 a) ∧
    ((∀ k, k < 180 → st k ≠ "Aggregated") →
      boundedPoll st 0 180 false = false) := by
  refine ⟨⟨?_, ?_⟩, ?_, ?_⟩
  · rintro ⟨fuel, hf⟩
    cases hp : pollLoop st 0 fuel with
    | none => rw [hp] at hf; cases hf
    | some j => exact ⟨j, pollLoop_some fuel 0 j hp⟩
  · rintro ⟨k, hk⟩
    exact ⟨k + 1, pollLoop_isSome_of_agg (k + 1) 0 k (by omega) (by omega) hk⟩
  · intro st₂ h a
    exact boundedPoll_frame 180 0 a fun j h1 h2 => h j (by omega)
  · intro h
    exact boundedPoll_gives_up 180 0 fun j h1 h2 => h j (by omega)

/-- C9 witness: with a stream that answers `Aggregated` at once, the first
loop does exit within finitely many polls. -/
theorem polling_loops_characterization_witness :
    ∃ fuel, (pollLoop (fun _ => "Aggregated") 0 fuel).isSome = true :=
  (polling_loops_characterization (fun _ => "Aggregated")).1.mpr ⟨0, rfl⟩

/-- C10: Implicit literal-range invariant.  In every assignment satisfying
the full top-level constraint system, each literal instance has a uniquely
selected window position `t` with selector value 1 at which every literal
signal equals the corresponding buffer byte `eml[t+i]`; since all buffer
entries are range-checked, every literal signal is the field image of a
natural number below 256.  The hypothesis `hc` states that naturals up to
8192 cast injectively into `F` relative to 1, true of the circuit field. -/
theorem literal_range_invariant (F : Type) [Field F] (posH : F → F → F)
    (hc : ∀ n : ℕ, n ≤ 8192 → (n : F) = 1 → n = 1)
    (comm : F) (eml fromB toB atgB sF sT sA : ℕ → F)
    (hsat : emlHasHeadersSimpleSat 8192 posH comm eml fromB toB atgB sF sT sA) :
    (∃ t ∈ Finset.range (8192 - 5 + 1), sF t = 1 ∧
      (∀ u ∈ Finset.range (8192 - 5 + 1), sF u = 1 → u = t) ∧
      ∀ i ∈ Finset.range 5, fromB i = eml (t + i)) ∧
    (∀ i ∈ Finset.range 5, ∃ m : ℕ, m < 256 ∧ fromB i = (m : F)) ∧
    (∃ t ∈ Finset.range (8192 - 3 + 1), sT t = 1 ∧
      (∀ u ∈ Finset.range (8192 - 3 + 1), sT u = 1 → u = t) ∧
      ∀ i ∈ Finset.range 3, toB i = eml (t + i)) ∧
    (∀ i ∈ Finset.range 3, ∃ m : ℕ, m < 256 ∧ toB i = (m : F)) ∧
    (∃ t ∈ Finset.range (8192 - 10 + 1), sA t = 1 ∧
      (∀ u ∈ Finset.range (8192 - 10 + 1), sA u = 1 → u = t) ∧
      ∀ i ∈ Finset.range 10, atgB i = eml (t + i)) ∧
    (∀ i ∈ Finset.range 10, ∃ m : ℕ, m < 256 ∧ atgB i = (m : F)) := by
  obtain ⟨hroll, hfrom, hto, hatg⟩ := hsat
  obtain ⟨tf, htf, hvf, hunf, hmf⟩ :=
    literal_sat_selected (fun n hn => hc n (by omega)) hfrom
  obtain ⟨tt, htt, hvt, hunt, hmt⟩ :=
    literal_sat_selected (fun n hn => hc n (by omega)) hto
  obtain ⟨ta, hta, hva, huna, hma⟩ :=
    literal_sat_selected (fun n hn => hc n (by omega)) hatg
  have hbyte : ∀ idx, idx < 8192 → ∃ m : ℕ, m < 256 ∧ eml idx = (m : F) :=
    fun idx hidx => rolling_sat_bytes_out hroll hidx (by omega)
  refine ⟨⟨tf, htf, hvf, hunf, hmf⟩, ?_, ⟨tt, htt, hvt, hunt, hmt⟩, ?_,
    ⟨ta, hta, hva, huna, hma⟩, ?_⟩
  · intro i hi
    have h1 := Finset.mem_range.mp htf
    have h2 := Finset.mem_range.mp hi
    obtain ⟨m, hm, he⟩ := hbyte (tf + i) (by omega)
    exact ⟨m, hm, by rw [hmf i hi, he]⟩
  · intro i hi
    have h1 := Finset.mem_range.mp htt
    have h2 := Finset.mem_range.mp hi
    obtain ⟨m, hm, he⟩ := hbyte (tt + i) (by omega)
    exact ⟨m, hm, by rw [hmt i hi, he]⟩
  · intro i hi
    have h1 := Finset.mem_range.mp hta
    have h2 := Finset.mem_range.mp hi
    obtain ⟨m, hm, he⟩ := hbyte (ta + i) (by omega)
    exact ⟨m, hm, by rw [hma i hi, he]⟩

/-- C10 witness: the invariant evaluated on the all-zero satisfying
assignment over `ZMod 12289`. -/
theorem literal_range_invariant_witness :
    (∃ t ∈ Finset.range (8192 - 5 + 1), oneHotF (F := ZMod 12289) 0 t = 1 ∧
      (∀ u ∈ Finset.range (8192 - 5 + 1), oneHotF (F := ZMod 12289) 0 u = 1 → u = t) ∧
      ∀ i ∈ Finset.range 5, (0 : ZMod 12289) = (fun _ : ℕ => (0 : ZMod 12289)) (t + i)) ∧
    (∀ i ∈ Finset.range 5, ∃ m : ℕ, m < 256 ∧ (0 : ZMod 12289) = (m : ZMod 12289)) ∧
    (∃ t ∈ Finset.range (8192 - 3 + 1), oneHotF (F := ZMod 12289) 0 t = 1 ∧
      (∀ u ∈ Finset.range (8192 - 3 + 1), oneHotF (F := ZMod 12289) 0 u = 1 → u = t) ∧
      ∀ i ∈ Finset.range 3, (0 : ZMod 12289) = (fun _ : ℕ => (0 : ZMod 12289)) (t + i)) ∧
    (∀ i ∈ Finset.range 3, ∃ m : ℕ, m < 256 ∧ (0 : ZMod 12289) = (m : ZMod 12289)) ∧
    (∃ t ∈ Finset.range (8192 - 10 + 1), oneHotF (F := ZMod 12289) 0 t = 1 ∧
      (∀ u ∈ Finset.range (8192 - 10 + 1), oneHotF (F := ZMod 12289) 0 u = 1 → u = t) ∧
      ∀ i ∈ Finset.range 10, (0 : ZMod 12289) = (fun _ : ℕ => (0 : ZMod 12289)) (t + i)) ∧
    (∀ i ∈ Finset.range 10, ∃ m : ℕ, m < 256 ∧ (0 : ZMod 12289) = (m : ZMod 12289)) :=
  literal_range_invariant (ZMod 12289) hashEx castInj12289
    (specCommitment hashEx 8192 265 (fun _ => 0)) (fun _ => 0) (fun _ => 0)
    (fun _ => 0) (fun _ => 0) (oneHotF 0) (oneHotF 0) (oneHotF 0)
    (emlZeroSat hashEx)

end EmlReceiver
